import Mathlib

/-!
Verification development for the Ceres-plusplus activity-index pipeline.

The definitions below are shallow embeddings of the Python sources
(`cerespp/utils.py`, `cerespp/spectra_utils.py`, `cerespp/processor.py`,
`cerespp/cerespp.py`, `cerespp/constants.py`), with numpy floating-point
numbers modelled as rationals.  External collaborators (the binary line
masks, `pyasl.crosscorrRV`, `scipy.optimize.curve_fit`, `np.sqrt`) are
modelled as explicit function parameters.  A Python exception (IndexError,
ValueError from `interp1d` with `bounds_error=True`, NameError) is
modelled by `Option.none`.
-/

namespace Cerespp

/-- Model of `np.linspace a b n` (endpoint included, numpy default). -/
def linspace (a b : ℚ) (n : ℕ) : List ℚ :=
  if n = 0 then []
  else if n = 1 then [a]
  else (List.range n).map (fun k : ℕ => a + (b - a) * (k : ℚ) / ((n : ℚ) - 1))

/-- Running-best helper for `argminQ`; keeps the first occurrence of the
minimum, as `np.argmin` does. -/
def argminAux : List ℚ → ℕ → ℕ → ℚ → ℕ
  | [], _, bi, _ => bi
  | x :: xs, i, bi, bv =>
    if x < bv then argminAux xs (i + 1) i x else argminAux xs (i + 1) bi bv

/-- Model of `np.argmin` on a vector; `none` on the empty vector (numpy
raises there). -/
def argminQ : List ℚ → Option ℕ
  | [] => none
  | x :: xs => some (argminAux xs 1 0 x)

/-- Helper for linear interpolation over (x, y) node pairs listed with
increasing x (every call site passes a sorted grid, matching what
`scipy.interpolate.interp1d` builds).  An out-of-range query yields `none`,
modelling the `ValueError` raised under `bounds_error=True` (the default);
fewer than two nodes also yield `none` (interp1d rejects them). -/
def interpAux (x : ℚ) : List (ℚ × ℚ) → Option ℚ
  | [] => none
  | [_] => none
  | p0 :: p1 :: ps =>
    if x ≤ p1.1 then
      if p0.1 ≤ x then
        some (p0.2 + (p1.2 - p0.2) * (x - p0.1) / (p1.1 - p0.1))
      else none
    else interpAux x (p1 :: ps)

/-- Model of `scipy.interpolate.interp1d(xs, ys)` evaluated at one point. -/
def interp1dAt (xs ys : List ℚ) (x : ℚ) : Option ℚ :=
  interpAux x (xs.zip ys)

/-- Model of `interp1d(xs, ys, bounds_error=False, fill_value=0)`. -/
def interp1dFill0 (xs ys : List ℚ) (x : ℚ) : ℚ :=
  (interp1dAt xs ys x).getD 0

/-- Model of `np.trapz(y, x)`: trapezoidal quadrature. -/
def trapz : List ℚ → List ℚ → ℚ
  | y0 :: ys, x0 :: xs =>
    match ys, xs with
    | y1 :: _, x1 :: _ => (x1 - x0) * (y0 + y1) / 2 + trapz ys xs
    | _, _ => 0
  | _, _ => 0

/-- Evaluate `f` on every element, failing when any single evaluation fails
(models a vectorized scipy call that raises on any element). -/
def optionMapAll {α β : Type} (f : α → Option β) : List α → Option (List β)
  | [] => some []
  | a :: l => do
    let b ← f a
    let r ← optionMapAll f l
    pure (b :: r)

/-- Normalize one endpoint of a Python slice for a sequence of length `n`. -/
def pyBound (n : ℕ) (i : ℤ) : ℕ :=
  if i < 0 then ((n : ℤ) + i).toNat else min i.toNat n

/-- Model of the Python slice `l[s:e]`, including the negative-index
wrap-around semantics. -/
def pySlice {α : Type} (l : List α) (s e : ℤ) : List α :=
  (l.take (pyBound l.length e)).drop (pyBound l.length s)

/-- Contiguous slice `l[s:e]` for nonnegative Python indices. -/
def sliceNat {α : Type} (l : List α) (s e : ℕ) : List α :=
  (l.take e).drop s

/-- Model of `np.median` of a one-dimensional vector. -/
def npMedian (l : List ℚ) : ℚ :=
  let s := l.insertionSort (· ≤ ·)
  if l.length % 2 = 1 then s.getD (l.length / 2) 0
  else (s.getD (l.length / 2 - 1) 0 + s.getD (l.length / 2) 0) / 2

/-- Model of `np.median(rows, axis=0)` for equal-length rows. -/
def npMedianAxis0 (rows : List (List ℚ)) : List ℚ :=
  (List.range (rows.headD []).length).map
    (fun j => npMedian (rows.map (fun r => r.getD j 0)))

/-- Line centres and the S-index instrument exception list, from
`cerespp/constants.py`. -/
def CaH : ℚ := 3968.47

def CaK : ℚ := 3933.664

def CaV : ℚ := 3901

def CaR : ℚ := 4001

def Ha : ℚ := 6562.808

def HeI : ℚ := 5875.62

def NaID1 : ℚ := 5895.92

def NaID2 : ℚ := 5889.95

def s_exceptions : List String := ["fideos"]

/-- Embeds `utils.get_ini_end`: nearest-index search for the band limits
(`none` only for an empty wavelength array, where `np.argmin` raises). -/
def get_ini_end (x : List ℚ) (mid width : ℚ) : Option (ℕ × ℕ) := do
  let ini ← argminQ (x.map (fun xi => |xi - (mid - width)|))
  let fin ← argminQ (x.map (fun xi => |xi - (mid + width)|))
  pure (ini, fin)

/-- The two response-filter shapes accepted by `utils.get_response`. -/
inductive FiltShape
  | square
  | triangle

/-- Embeds `scipy.signal.triang(999, True)` (odd symmetric triangular
window of length 999, peak value 1). -/
def triang999 : List ℚ :=
  let up := (List.range 500).map (fun k => ((k : ℚ) + 1) / 500)
  up ++ up.dropLast.reverse

/-- Embeds `utils.get_response`: the response filter (an `interp1d` with
fill value 0 over a 1000- or 999-point grid) together with the returned
width; note the square branch halves the supplied width. -/
def get_response (line width : ℚ) (filt : FiltShape) : (ℚ → ℚ) × ℚ :=
  match filt with
  | .square =>
    let w2 := width / 2
    (interp1dFill0 (linspace (line - w2) (line + w2) 1000) (List.replicate 1000 1), w2)
  | .triangle =>
    (interp1dFill0 (linspace (line - width) (line + width) 999) triang999, width)

/-- Embeds `utils.get_line_flux`.  `sq` models `np.sqrt`; `error` mirrors
the optional error array.  `none` models the Python exceptions (interp1d
bounds error, negative linspace size, argmin on an empty array). -/
def get_line_flux (sq : ℚ → ℚ) (wavelength flux : List ℚ) (line width : ℚ)
    (filt : FiltShape) (error : Option (List ℚ)) : Option (ℚ × Option ℚ) := do
  let rw := get_response line width filt
  let resp_f := rw.1
  let w2 := rw.2
  let ie ← get_ini_end wavelength line w2
  let ini := ie.1
  let fin := ie.2
  if fin < ini then none
  else
    let w := linspace (line - w2) (line + w2) (fin - ini)
    let xs := pySlice wavelength ((ini : ℤ) - 2) ((fin : ℤ) + 2)
    let ys := pySlice flux ((ini : ℤ) - 2) ((fin : ℤ) + 2)
    let intp_flux ← optionMapAll (interp1dAt xs ys) w
    let response := w.map resp_f
    let integrated := trapz (List.zipWith (· * ·) intp_flux response) w / trapz response w
    match error with
    | none => pure (integrated, none)
    | some err =>
      let wseg := pySlice wavelength (ini : ℤ) (fin : ℤ)
      let eseg := pySlice err (ini : ℤ) (fin : ℤ)
      let num := (List.zipWith (fun e wv => (e * resp_f wv) ^ 2) eseg wseg).sum
      let den := (wseg.map (fun wv => resp_f wv ^ 2)).sum
      pure (integrated, some (sq (num / den)))

/-- One echelle order of the stacked array `data[:, i, :]`: the four
channels used by `merge_echelle` (wavelength, flux, error,
signal-to-noise). -/
structure EchelleOrder where
  wave : List ℚ
  flux : List ℚ
  err : List ℚ
  sn : List ℚ

/-- Embeds the crossover search of `spectra_utils.merge_echelle` for one
adjacent pair: interpolate both orders' signal-to-noise curves onto a
1000-point grid spanning `[wave_next[0], wave_current[-1]]` and take the
grid point where they are closest. -/
def crossover (cur nxt : EchelleOrder) : Option ℚ := do
  let a ← nxt.wave.head?
  let b ← cur.wave.getLast?
  let wav := linspace a b 1000
  let diffs ← optionMapAll
    (fun x => do
      let sc ← interp1dAt cur.wave cur.sn x
      let sx ← interp1dAt nxt.wave nxt.sn x
      pure |sc - sx|) wav
  let i ← argminQ diffs
  wav.get? i

/-- First index whose wavelength is within 0.1 of `w`: embeds
`np.where(abs(wave - w) < 0.1)[0][0]` (`none` models the IndexError when no
pixel is within tolerance). -/
def findIdxWithin : List ℚ → ℚ → Option ℕ
  | [], _ => none
  | x :: xs, w =>
    if |x - w| < 1 / 10 then some 0 else (findIdxWithin xs w).map (· + 1)

/-- The loop of `spectra_utils.merge_echelle` over adjacent order pairs,
processed from the highest order index downwards; `cur` is the current
order, the head of `rest` is the next order, `ns` is the carried
`next_start` index.  When `rest` is empty the remaining tail of the last
order is appended. -/
def mergeLoop : EchelleOrder → List EchelleOrder → ℕ →
    Option (List ℚ × List ℚ × List ℚ × List ℚ)
  | cur, [], ns =>
    some (cur.wave.drop ns, cur.flux.drop ns, cur.err.drop ns, cur.sn.drop ns)
  | cur, nxt :: rest, ns => do
    let w ← crossover cur nxt
    let ce ← findIdxWithin cur.wave w
    let ns1 ← findIdxWithin nxt.wave w
    let t ← mergeLoop nxt rest ns1
    pure (sliceNat cur.wave ns ce ++ t.1, sliceNat cur.flux ns ce ++ t.2.1,
      sliceNat cur.err ns ce ++ t.2.2.1, sliceNat cur.sn ns ce ++ t.2.2.2)

/-- Embeds `spectra_utils.merge_echelle` (the computation of the merged
arrays; the optional FITS output is external I/O).  The orders are listed
by ascending order index, as in `data[:, i, :]`; the Python loop runs
`i = n-1, ..., 1`, pairing order `i` with order `i-1`, so the reversed
list is processed front to back.  Fewer than two orders leave `wave_next`
unbound in Python (NameError), modelled by `none`. -/
def merge_echelle (orders : List EchelleOrder) :
    Option (List ℚ × List ℚ × List ℚ × List ℚ) :=
  match orders.reverse with
  | cur :: nxt :: rest => mergeLoop cur (nxt :: rest) 0
  | _ => none

/-- Companion check for `mergeLoop`: it replays the same crossover and
index computations and requires every appended per-pair slice to be
nonempty (the carried start index stays strictly below the crossover
index at each step). -/
def slicesOkLoop : EchelleOrder → List EchelleOrder → ℕ → Bool
  | _, [], _ => true
  | cur, nxt :: rest, ns =>
    (do
      let w ← crossover cur nxt
      let ce ← findIdxWithin cur.wave w
      let ns1 ← findIdxWithin nxt.wave w
      pure (decide (ns < ce) && slicesOkLoop nxt rest ns1) : Option Bool).getD false

/-- Nonempty-slice condition for a whole `merge_echelle` run. -/
def slicesOk (orders : List EchelleOrder) : Bool :=
  match orders.reverse with
  | cur :: nxt :: rest => slicesOkLoop cur (nxt :: rest) 0
  | _ => false

/-- States reachable by the merge loop of `merge_echelle`: from a start
state, each step resolves one adjacent pair completely (the crossover and
both pixel lookups succeed) and advances to the next order with the
carried start index, exactly as the loop does. -/
inductive MergeReaches :
    EchelleOrder → List EchelleOrder → ℕ →
      EchelleOrder → List EchelleOrder → ℕ → Prop
  | refl (cur : EchelleOrder) (rest : List EchelleOrder) (ns : ℕ) :
      MergeReaches cur rest ns cur rest ns
  | step (cur nxt : EchelleOrder) (rest : List EchelleOrder) (ns : ℕ)
      (w : ℚ) (ce ns1 : ℕ) (cur2 : EchelleOrder) (rest2 : List EchelleOrder)
      (ns2 : ℕ) :
      crossover cur nxt = some w →
      findIdxWithin cur.wave w = some ce →
      findIdxWithin nxt.wave w = some ns1 →
      MergeReaches nxt rest ns1 cur2 rest2 ns2 →
      MergeReaches cur (nxt :: rest) ns cur2 rest2 ns2

/-- The order indices visited by the loop of
`spectra_utils.correct_to_rest`: Python `range(nord - 1, 0, -1)`, i.e.
`nord-1, ..., 1`. -/
def restFrameLoopOrders (nord : ℕ) : List ℕ :=
  ((List.range (nord - 1)).map (· + 1)).reverse

/-- Embeds the CCF-collection loop of `spectra_utils.correct_to_rest`:
`ccfFun wave flux drv` abstracts `crosscorr.ccf(wave, flux, mask, drv)`
(the mask file and `pyasl.crosscorrRV` are external); `waves` and `fluxes`
are the per-order rows of channels 0 and 5.  One CCF is collected per
visited order, each with `drv = 0.05`. -/
def correct_to_rest_ccf_arr (ccfFun : List ℚ → List ℚ → ℚ → List ℚ)
    (waves fluxes : List (List ℚ)) : List (List ℚ) :=
  (restFrameLoopOrders waves.length).map
    (fun o => ccfFun (waves.getD o []) (fluxes.getD o []) (1 / 20))

/-- Embeds the median combination `np.median(ccf_arr, axis=0)` of
`correct_to_rest`. -/
def correct_to_rest_med_ccf (ccfFun : List ℚ → List ℚ → ℚ → List ℚ)
    (waves fluxes : List (List ℚ)) : List ℚ :=
  npMedianAxis0 (correct_to_rest_ccf_arr ccfFun waves fluxes)

/-- Embeds `SpectrumProcessor._calculate_nai` (processor.py): the NaI
D1 D2 index and its propagated error from the merged 1D spectrum.  `sq`
models `np.sqrt`. -/
def calculate_nai (sq : ℚ → ℚ) (waves fluxes errors : List ℚ) :
    Option (ℚ × ℚ) := do
  let r1 ← get_line_flux sq waves fluxes NaID1 1 .square (some errors)
  let D1 := r1.1
  let sD1 ← r1.2
  let r2 ← get_line_flux sq waves fluxes NaID2 1 .square (some errors)
  let D2 := r2.1
  let sD2 ← r2.2
  let rL ← get_line_flux sq waves fluxes 5805 10 .square (some errors)
  let L := rL.1
  let sL ← rL.2
  let rR ← get_line_flux sq waves fluxes 6090 20 .square (some errors)
  let R := rR.1
  let sR ← rR.2
  let NaID1D2 := (D1 + D2) / (R + L)
  let sNanum := sq (sD1 ^ 2 + sD2 ^ 2)
  let sNaden := sq (sL ^ 2 + sR ^ 2)
  let sNaID1D2 := NaID1D2 * sq ((sNanum / (D1 + D2)) ^ 2 + (sNaden / (R + L)) ^ 2)
  pure (NaID1D2, sNaID1D2)

/-- The C5 claim's version of the NaI index, following the spec's words:
`Index = LineFlux / (0.5 * (Continuum1 + Continuum2))` with the combined
D1 + D2 line flux as numerator and the 5805 and 6090 square continuum
fluxes in the denominator. -/
def claim_nai_value (waves fluxes : List ℚ) : Option ℚ := do
  let r1 ← get_line_flux (fun x => x) waves fluxes NaID1 1 .square none
  let D1 := r1.1
  let r2 ← get_line_flux (fun x => x) waves fluxes NaID2 1 .square none
  let D2 := r2.1
  let rL ← get_line_flux (fun x => x) waves fluxes 5805 10 .square none
  let L := rL.1
  let rR ← get_line_flux (fun x => x) waves fluxes 6090 20 .square none
  let R := rR.1
  pure ((D1 + D2) / ((1 / 2) * (L + R)))

/-- Formula-level embedding (over ℝ, with the genuine square root) of the
S-index computation of `SpectrumProcessor._calculate_s_index`: value and
propagated error from the four band fluxes and their uncertainties. -/
noncomputable def s_index_calc (NV sNV NR sNR NK sNK NH sNH : ℝ) : ℝ × ℝ :=
  let S := (NH + NK) / (NR + NV)
  let sSnum := Real.sqrt (sNH ^ 2 + sNK ^ 2)
  let sSden := Real.sqrt (sNV ^ 2 + sNR ^ 2)
  (S, S * Real.sqrt ((sSnum / (NH + NK)) ^ 2 + (sSden / (NR + NV)) ^ 2))

/-- Formula-level embedding of `SpectrumProcessor._calculate_halpha`. -/
noncomputable def halpha_calc (FHa sFHa F1 sF1 F2 sF2 : ℝ) : ℝ × ℝ :=
  let Halpha := FHa / (0.5 * (F1 + F2))
  let sden := Real.sqrt (sF1 ^ 2 + sF2 ^ 2)
  (Halpha, Halpha * Real.sqrt ((sFHa / FHa) ^ 2 + (sden / (F1 + F2)) ^ 2))

/-- Formula-level embedding of `SpectrumProcessor._calculate_hei`. -/
noncomputable def hei_calc (FHeI sFHeI F1 sF1 F2 sF2 : ℝ) : ℝ × ℝ :=
  let HelI := FHeI / (0.5 * (F1 + F2))
  let sden := Real.sqrt (sF1 ^ 2 + sF2 ^ 2)
  (HelI, HelI * Real.sqrt ((sFHeI / FHeI) ^ 2 + (sden / (F1 + F2)) ^ 2))

/-- Formula-level embedding of the value-and-error combination step of
`SpectrumProcessor._calculate_nai`. -/
noncomputable def nai_calc (D1 sD1 D2 sD2 L sL R sR : ℝ) : ℝ × ℝ :=
  let NaID1D2 := (D1 + D2) / (R + L)
  let sNanum := Real.sqrt (sD1 ^ 2 + sD2 ^ 2)
  let sNaden := Real.sqrt (sL ^ 2 + sR ^ 2)
  (NaID1D2, NaID1D2 * Real.sqrt ((sNanum / (D1 + D2)) ^ 2 + (sNaden / (R + L)) ^ 2))

/-- The error convention of the spec (§4.5): an absolute error, the index
value times the quadrature sum of the numerator and denominator fractional
uncertainties. -/
noncomputable def spec_error_abs (idx num sigNum den sigDen : ℝ) : ℝ :=
  idx * Real.sqrt ((sigNum / num) ^ 2 + (sigDen / den) ^ 2)

/-- The per-file outputs produced by a successful run of the processing
steps inside `SpectrumProcessor.process_file` (steps 1-7). -/
structure IndexOutputs where
  bjd : ℚ
  s_index : ℚ
  s_index_error : ℚ
  halpha : ℚ
  halpha_error : ℚ
  hei : ℚ
  hei_error : ℚ
  nai_d1d2 : ℚ
  nai_d1d2_error : ℚ
  bis : ℚ
  bis_error : ℚ
  contrast : ℚ
  fwhm : Option ℚ
  fwhm_error : Option ℚ

/-- Model of the `ProcessingResult` dataclass (models.py): the fields the
batch conversion reads, plus the `errors` message. -/
structure ProcessingResultM where
  filename : String
  bjd : ℚ
  s_index : ℚ
  s_index_error : ℚ
  halpha : ℚ
  halpha_error : ℚ
  hei : ℚ
  hei_error : ℚ
  nai_d1d2 : ℚ
  nai_d1d2_error : ℚ
  bis : ℚ
  bis_error : ℚ
  contrast : ℚ
  fwhm : Option ℚ
  fwhm_error : Option ℚ
  errors : Option String

/-- Embeds `SpectrumProcessor.process_file`: every processing step runs
inside one `try`, and any exception is converted into a result whose
`errors` field carries the message, with the dataclass defaults
(`bjd = 0`, indices `-999`, `bis = 0`, `contrast = 0`, `fwhm = None`) in
the remaining fields.  `compute` abstracts steps 1-7 (FITS load,
rest-frame correction, merge, four indices); a Python exception inside
them is an `Except.error` carrying `str(e)`. -/
def process_file (compute : String → Except String IndexOutputs)
    (filename : String) : ProcessingResultM :=
  match compute filename with
  | .ok o =>
    { filename := filename, bjd := o.bjd, s_index := o.s_index,
      s_index_error := o.s_index_error, halpha := o.halpha,
      halpha_error := o.halpha_error, hei := o.hei, hei_error := o.hei_error,
      nai_d1d2 := o.nai_d1d2, nai_d1d2_error := o.nai_d1d2_error,
      bis := o.bis, bis_error := o.bis_error, contrast := o.contrast,
      fwhm := o.fwhm, fwhm_error := o.fwhm_error, errors := none }
  | .error e =>
    { filename := filename, bjd := 0, s_index := -999, s_index_error := -999,
      halpha := -999, halpha_error := -999, hei := -999, hei_error := -999,
      nai_d1d2 := -999, nai_d1d2_error := -999, bis := 0, bis_error := 0,
      contrast := 0, fwhm := none, fwhm_error := none, errors := some e }

/-- Embeds the batch loop of `cerespp.get_activities`: each file is handed
to `process_file`; since `process_file` catches every exception itself,
every file contributes exactly one result record and the loop never
aborts early. -/
def get_activities_results (compute : String → Except String IndexOutputs)
    (files : List String) : List ProcessingResultM :=
  files.map (process_file compute)

/-- Python truthiness of an optional string: `None` and the empty string
are falsy, any other string is truthy. -/
def pyTruthyStr : Option String → Bool
  | none => false
  | some s => decide (s ≠ "")

/-- Embeds the row-selection loop of `cerespp._convert_to_legacy_format`:
a result is skipped exactly when `if result.errors:` is truthy. -/
def legacy_rows (results : List ProcessingResultM) : List ProcessingResultM :=
  results.filter (fun r => !pyTruthyStr r.errors)

/-- Three-order input for claim C1: wavelengths strictly increase within
each order and adjacent orders overlap, yet the two crossover points land
out of order (990 for the first pair, 150 for the second), so the middle
slice is empty and the merged wavelengths are not monotonic. -/
def exC1o2 : EchelleOrder :=
  ⟨[-1, 205, 990, 999], [-1, 205, 990, 999], [-1, 205, 990, 999], [-1, 205, 990, 999]⟩

/-- Middle order of the C1 input (constant signal-to-noise 990). -/
def exC1o1 : EchelleOrder :=
  ⟨[0, 150, 990, 1100], [0, 150, 990, 1100], [0, 150, 990, 1100], [990, 990, 990, 990]⟩

/-- Highest-wavelength order (order index 0) of the C1 input; its
signal-to-noise curve is the identity shifted by 840, crossing the middle
order's constant 990 at wavelength 150. -/
def exC1o0 : EchelleOrder :=
  ⟨[101, 150, 1100], [101, 150, 1100], [101, 150, 1100], [941, 990, 1940]⟩

/-- The C1 input, listed by ascending order index (order 0 first). -/
def exC1 : List EchelleOrder := [exC1o0, exC1o1, exC1o2]

/-- Two-order input on which every merge slice is nonempty; used to witness
the amended C1 theorem. -/
def exC1wLow : EchelleOrder :=
  ⟨[-1, 500, 999], [-1, 500, 999], [-1, 500, 999], [-1, 500, 999]⟩

/-- High-wavelength order of the witness input (constant signal-to-noise
500, crossing the identity curve at wavelength 500). -/
def exC1wHigh : EchelleOrder :=
  ⟨[0, 500, 1100], [0, 500, 1100], [0, 500, 1100], [500, 500, 500]⟩

/-- The two-order witness input for C1, by ascending order index. -/
def exC1w : List EchelleOrder := [exC1wHigh, exC1wLow]

/-- Highest-wavelength order of the second C2 input: its signal-to-noise
curve (the identity shifted by 840) crosses the middle order's constant
990 at wavelength 150, but no pixel of this order lies within 0.1 of
150. -/
def exC2bO0 : EchelleOrder :=
  ⟨[101, 160, 1100], [101, 160, 1100], [101, 160, 1100], [941, 1000, 1940]⟩

/-- Three-order input for claim C2 on which the first pair merges fine
and the second pair's crossover (150) has no pixel within tolerance in
the next order's grid — the lookup of `next_start` (line 252) fails. -/
def exC2b : List EchelleOrder := [exC2bO0, exC1o1, exC1o2]

/-- Two-order input for claim C2: the crossover lands at wavelength 500
but the current order has no pixel within 0.1 of it, so the Python
`np.where(...)[0][0]` raises IndexError. -/
def exC2cur : EchelleOrder :=
  ⟨[-1, 300, 999], [-1, 300, 999], [-1, 300, 999], [-1, 300, 999]⟩

/-- Next order of the C2 input (constant signal-to-noise 500). -/
def exC2nxt : EchelleOrder :=
  ⟨[0, 500, 1100], [0, 500, 1100], [0, 500, 1100], [500, 500, 500]⟩

/-- The C2 input, by ascending order index. -/
def exC2 : List EchelleOrder := [exC2nxt, exC2cur]

/-- Merged-spectrum wavelength grid used by the C5 counterexample: it
covers the four NaI bands (5805 +- 5, 5889.95 +- 0.5, 5895.92 +- 0.5,
6090 +- 10 after halving) with pixels exactly at each band edge. -/
def exC5waves : List ℚ :=
  [5700, 5750, 5800, 5805, 5810, 5850, 5870, 5889.45, 5890, 5890.45, 5893,
   5895.42, 5896, 5896.42, 5950, 6000, 6080, 6090, 6100, 6200, 6300]

/-- Constant unit flux on the C5 grid. -/
def exC5flux : List ℚ := List.replicate 21 1

/-- Constant unit errors on the C5 grid. -/
def exC5err : List ℚ := List.replicate 21 1

/-- Wavelength grid 0,...,10 used by the C8 and C9 examples. -/
def exGrid11 : List ℚ := [0, 1, 2, 3, 4, 5, 6, 7, 8, 9, 10]

/-- Two-pixel wavelength grid used by the C8 witness. -/
def exGrid2 : List ℚ := [5, 6]

/-- Specification of `findIdxWithin`: a returned index carries a pixel
within tolerance, and every earlier pixel is out of tolerance. -/
theorem findIdxWithin_spec : ∀ (l : List ℚ) (w : ℚ) (i : ℕ),
    findIdxWithin l w = some i →
    (∃ x, l.get? i = some x ∧ |x - w| < 1 / 10) ∧
      ∀ j, j < i → ∀ x, l.get? j = some x → ¬|x - w| < 1 / 10 := by
  intro l
  induction l with
  | nil => intro w i h; simp [findIdxWithin] at h
  | cons x xs ih =>
    intro w i h
    by_cases hx : |x - w| < 1 / 10
    · rw [findIdxWithin, if_pos hx] at h
      obtain rfl : (0 : ℕ) = i := Option.some.inj h
      refine ⟨⟨x, rfl, hx⟩, ?_⟩
      intro j hj; omega
    · rw [findIdxWithin, if_neg hx] at h
      obtain ⟨i1, hi1, rfl⟩ := Option.map_eq_some'.mp h
      obtain ⟨⟨y, hy, hyw⟩, hbefore⟩ := ih w i1 hi1
      refine ⟨⟨y, by simpa using hy, hyw⟩, ?_⟩
      intro j hj z hz
      cases j with
      | zero =>
        obtain rfl : x = z := by simpa using hz
        exact hx
      | succ j1 =>
        exact hbefore j1 (by omega) z (by simpa using hz)

/-- Every member of the slice `l[s:e]` sits at an index in `[s, e)`. -/
theorem sliceNat_mem_index {α : Type} (l : List α) (s e : ℕ) (x : α)
    (hx : x ∈ sliceNat l s e) : ∃ j, s ≤ j ∧ j < e ∧ l.get? j = some x := by
  obtain ⟨k, hk⟩ := List.mem_iff_get?.mp hx
  rw [sliceNat, List.get?_drop] at hk
  have hlt : s + k < (l.take e).length := (List.get?_eq_some.mp hk).1
  have hlt2 : s + k < e := by
    have := l.length_take e
    omega
  refine ⟨s + k, by omega, hlt2, ?_⟩
  rw [← List.get?_take hlt2]
  exact hk

/-- Conversely, every index in `[s, e)` of `l` contributes to `l[s:e]`. -/
theorem sliceNat_index_mem {α : Type} (l : List α) (s e j : ℕ) (x : α)
    (hs : s ≤ j) (hj : j < e) (hg : l.get? j = some x) : x ∈ sliceNat l s e := by
  have h1 : (l.take e).get? j = some x := by rw [List.get?_take hj]; exact hg
  have h2 : ((l.take e).drop s).get? (j - s) = some x := by
    rw [List.get?_drop]
    have : s + (j - s) = j := by omega
    rw [this]; exact h1
  exact List.get?_mem h2

/-- Strictly sorted lists compare strictly across `get?` indices. -/
theorem pairwise_get?_lt {l : List ℚ} (hp : l.Pairwise (· < ·)) {i j : ℕ} {a b : ℚ}
    (ha : l.get? i = some a) (hb : l.get? j = some b) (hij : i < j) : a < b := by
  obtain ⟨hi, rfl⟩ := List.get?_eq_some.mp ha
  obtain ⟨hj2, rfl⟩ := List.get?_eq_some.mp hb
  exact List.pairwise_iff_get.mp hp ⟨i, hi⟩ ⟨j, hj2⟩ hij

/-- Strictly sorted lists compare weakly across `get?` indices. -/
theorem pairwise_get?_le {l : List ℚ} (hp : l.Pairwise (· < ·)) {i j : ℕ} {a b : ℚ}
    (ha : l.get? i = some a) (hb : l.get? j = some b) (hij : i ≤ j) : a ≤ b := by
  rcases Nat.lt_or_ge i j with h | h
  · exact le_of_lt (pairwise_get?_lt hp ha hb h)
  · have : i = j := by omega
    subst this
    rw [ha] at hb
    exact le_of_eq (Option.some.inj hb)

/-- A pixel located at an index strictly below the first-within-tolerance
index of `w` lies at least 0.1 below `w` (it cannot lie 0.1 above, being
smaller than the in-tolerance pixel). -/
theorem before_tol_le {l : List ℚ} (hp : l.Pairwise (· < ·)) {w xc x : ℚ} {c j : ℕ}
    (hxc : l.get? c = some xc) (hxc_tol : |xc - w| < 1 / 10)
    (hbefore : ∀ k, k < c → ∀ z, l.get? k = some z → ¬|z - w| < 1 / 10)
    (hj : j < c) (hx : l.get? j = some x) : x ≤ w - 1 / 10 := by
  have hlt : x < xc := pairwise_get?_lt hp hx hxc hj
  have h1 := abs_sub_lt_iff.mp hxc_tol
  have hnot := hbefore j hj x hx
  rw [abs_sub_lt_iff] at hnot
  push_neg at hnot
  have h2 : x - w < 1 / 10 := by linarith [h1.1]
  linarith [hnot h2]

/-- Invariant of the merge loop of `merge_echelle`: with strictly sorted
per-order wavelength grids and every appended slice nonempty, the output
wavelengths are strictly sorted and bounded below by the carried start
pixel of the current order. -/
theorem mergeLoop_waves_sorted :
    ∀ (rest : List EchelleOrder) (cur : EchelleOrder) (ns : ℕ)
      (out : List ℚ × List ℚ × List ℚ × List ℚ),
      cur.wave.Pairwise (· < ·) →
      (∀ o ∈ rest, o.wave.Pairwise (· < ·)) →
      slicesOkLoop cur rest ns = true →
      mergeLoop cur rest ns = some out →
      out.1.Pairwise (· < ·) ∧
        ∀ xv, cur.wave.get? ns = some xv → ∀ y ∈ out.1, xv ≤ y := by
  intro rest
  induction rest with
  | nil =>
    intro cur ns out hcur _ _ hm
    rw [mergeLoop] at hm
    obtain rfl := Option.some.inj hm
    constructor
    · exact hcur.sublist (List.drop_sublist ns _)
    · intro xv hxv y hy
      obtain ⟨k, hk⟩ := List.mem_iff_get?.mp hy
      rw [List.get?_drop] at hk
      exact pairwise_get?_le hcur hxv hk (by omega)
  | cons nxt rest ih =>
    intro cur ns out hcur hrest hok hm
    rw [slicesOkLoop] at hok
    cases hcw : crossover cur nxt with
    | none => rw [hcw] at hok; simp at hok
    | some w =>
      rw [hcw] at hok
      simp only [Option.bind_eq_bind, Option.some_bind] at hok
      cases hce : findIdxWithin cur.wave w with
      | none => rw [hce] at hok; simp at hok
      | some ce =>
        rw [hce] at hok
        simp only [Option.some_bind] at hok
        cases hns1 : findIdxWithin nxt.wave w with
        | none => rw [hns1] at hok; simp at hok
        | some ns1 =>
          rw [hns1] at hok
          simp only [Option.some_bind, Option.pure_def, Option.getD_some,
            Bool.and_eq_true, decide_eq_true_eq] at hok
          obtain ⟨hnsce, hok1⟩ := hok
          rw [mergeLoop] at hm
          rw [hcw] at hm
          simp only [Option.bind_eq_bind, Option.some_bind] at hm
          rw [hce] at hm
          simp only [Option.some_bind] at hm
          rw [hns1] at hm
          simp only [Option.some_bind] at hm
          cases htail : mergeLoop nxt rest ns1 with
          | none => rw [htail] at hm; cases hm
          | some t =>
            rw [htail] at hm
            simp only [Option.some_bind, Option.pure_def] at hm
            obtain rfl := Option.some.inj hm
            obtain ⟨⟨xce, hxce, hxce_tol⟩, hce_before⟩ := findIdxWithin_spec _ _ _ hce
            obtain ⟨⟨xn1, hxn1, hxn1_tol⟩, _⟩ := findIdxWithin_spec _ _ _ hns1
            have hnxt_pw : nxt.wave.Pairwise (· < ·) := hrest nxt (by simp)
            obtain ⟨htail_pw, htail_lb0⟩ :=
              ih nxt ns1 t hnxt_pw (fun o ho => hrest o (by simp [ho])) hok1 htail
            have htail_lb : ∀ y ∈ t.1, xn1 ≤ y := htail_lb0 xn1 hxn1
            have hxn1_gt : w - 1 / 10 < xn1 := by
              have := abs_sub_lt_iff.mp hxn1_tol
              linarith [this.2]
            have hchunk_le : ∀ x ∈ sliceNat cur.wave ns ce, x ≤ w - 1 / 10 := by
              intro x hx
              obtain ⟨j, hsj, hje, hgj⟩ := sliceNat_mem_index _ _ _ _ hx
              exact before_tol_le hcur hxce hxce_tol hce_before hje hgj
            have hchunk_pw : (sliceNat cur.wave ns ce).Pairwise (· < ·) :=
              hcur.sublist ((List.drop_sublist _ _).trans (List.take_sublist _ _))
            have hbound : ∀ x ∈ sliceNat cur.wave ns ce, ∀ y ∈ t.1, x < y := by
              intro x hx y hy
              calc x ≤ w - 1 / 10 := hchunk_le x hx
                _ < xn1 := hxn1_gt
                _ ≤ y := htail_lb y hy
            refine ⟨List.pairwise_append.mpr ⟨hchunk_pw, htail_pw, hbound⟩, ?_⟩
            intro xv hxv y hy
            rcases List.mem_append.mp hy with hy1 | hy2
            · obtain ⟨j, hsj, hje, hgj⟩ := sliceNat_mem_index _ _ _ _ hy1
              exact pairwise_get?_le hcur hxv hgj hsj
            · have hxvle : xv ≤ w - 1 / 10 :=
                before_tol_le hcur hxce hxce_tol hce_before hnsce hxv
              have hlty : xv < y := by
                calc xv ≤ w - 1 / 10 := hxvle
                  _ < xn1 := hxn1_gt
                  _ ≤ y := htail_lb y hy2
              exact le_of_lt hlty

/-- Executable check for a strictly increasing list of rationals. -/
def chainLtB : List ℚ → Bool
  | [] => true
  | x :: xs =>
    match xs with
    | [] => true
    | y :: _ => decide (x < y) && chainLtB xs

/-- The executable check agrees with `List.Chain' (· < ·)`. -/
theorem chainLtB_iff : ∀ l : List ℚ, chainLtB l = true ↔ l.Chain' (· < ·) := by
  intro l
  induction l with
  | nil => simp [chainLtB]
  | cons x xs ih =>
    cases xs with
    | nil => simp [chainLtB]
    | cons y ys =>
      rw [chainLtB]
      rw [Bool.and_eq_true, decide_eq_true_eq]
      rw [List.chain'_cons, ih]

/-- C1 (amended): for every multi-order spectrum accepted by
`merge_echelle` whose wavelengths strictly increase within each order,
provided every appended per-pair slice is nonempty (the carried start
index stays strictly below each crossover index, `slicesOk`), the merged
wavelength sequence is strictly increasing, and hence no wavelength point
of any input order appears twice across an order boundary. -/
theorem merge_echelle_sorted_of_slicesOk (orders : List EchelleOrder)
    (ws fs es ss : List ℚ)
    (hsort : ∀ o ∈ orders, o.wave.Chain' (· < ·))
    (hok : slicesOk orders = true)
    (hm : merge_echelle orders = some (ws, fs, es, ss)) :
    ws.Chain' (· < ·) ∧ ws.Pairwise (· ≠ ·) := by
  have hsortP : ∀ o ∈ orders.reverse, o.wave.Pairwise (· < ·) := by
    intro o ho
    exact List.chain'_iff_pairwise.mp (hsort o (List.mem_reverse.mp ho))
  rw [merge_echelle] at hm
  rw [slicesOk] at hok
  cases hrev : orders.reverse with
  | nil => rw [hrev] at hm; simp at hm
  | cons cur rest2 =>
    cases rest2 with
    | nil => rw [hrev] at hm; simp at hm
    | cons nxt rest =>
      rw [hrev] at hm hok hsortP
      have hmain := mergeLoop_waves_sorted (nxt :: rest) cur 0 (ws, fs, es, ss)
        (hsortP cur (by simp)) (fun o ho => hsortP o (by simp [ho])) hok hm
      exact ⟨List.chain'_iff_pairwise.mpr hmain.1, hmain.1.imp ne_of_lt⟩

set_option maxRecDepth 100000 in
/-- Witness for the amended C1 theorem at the concrete two-order spectrum
`exC1w`, whose merge succeeds with nonempty slices. -/
theorem merge_echelle_sorted_witness :
    List.Chain' (· < ·) [(-1 : ℚ), 500, 1100] ∧
      List.Pairwise (· ≠ ·) [(-1 : ℚ), 500, 1100] :=
  merge_echelle_sorted_of_slicesOk exC1w
    [-1, 500, 1100] [-1, 500, 1100] [-1, 500, 1100] [-1, 500, 500]
    (by simp only [← chainLtB_iff]; decide!) (by decide!) (by decide!)

set_option maxRecDepth 100000 in
/-- C1 counterexample: `exC1` is a three-order spectrum with strictly
increasing wavelengths in every order that `merge_echelle` accepts, yet
the merged wavelength sequence `[-1, 205, 150, 1100]` is not strictly
increasing (the two crossover points land out of order, making the middle
slice empty). -/
theorem merge_echelle_not_sorted_cex :
    merge_echelle exC1 =
        some ([-1, 205, 150, 1100], [-1, 205, 150, 1100],
          [-1, 205, 150, 1100], [-1, 205, 990, 1940]) ∧
      ¬List.Chain' (· < ·) [(-1 : ℚ), 205, 150, 1100] ∧
      ∀ o ∈ exC1, o.wave.Chain' (· < ·) :=
  ⟨by decide!, by simp only [← chainLtB_iff]; decide!,
    by simp only [← chainLtB_iff]; decide!⟩

/-- If the merge loop fails from some state, it also fails from every
state that reaches it: each fully resolved pair only wraps the later
result in successful binds. -/
theorem mergeLoop_none_of_reaches
    {cur : EchelleOrder} {rest : List EchelleOrder} {ns : ℕ}
    {cur2 : EchelleOrder} {rest2 : List EchelleOrder} {ns2 : ℕ}
    (h : MergeReaches cur rest ns cur2 rest2 ns2) :
    mergeLoop cur2 rest2 ns2 = none → mergeLoop cur rest ns = none := by
  induction h with
  | refl cur rest ns => exact fun hnone => hnone
  | step cur nxt rest ns w ce ns1 cur2 rest2 ns2 hcw hce hns1 hr ih =>
    intro hnone
    rw [mergeLoop, hcw]
    simp only [Option.bind_eq_bind, Option.some_bind]
    rw [hce]
    simp only [Option.some_bind]
    rw [hns1]
    simp only [Option.some_bind]
    rw [ih hnone]
    rfl

/-- An adjacent pair whose crossover has no within-tolerance pixel in the
current order's grid (the `cur_end` lookup) or in the next order's grid
(the `next_start` lookup) makes the loop fail at that pair, whatever
start index is carried in. -/
theorem mergeLoop_fail_pair (cur nxt : EchelleOrder) (rest : List EchelleOrder)
    (ns : ℕ) (w : ℚ) (hcw : crossover cur nxt = some w)
    (hfail : findIdxWithin cur.wave w = none ∨
      findIdxWithin nxt.wave w = none) :
    mergeLoop cur (nxt :: rest) ns = none := by
  rw [mergeLoop, hcw]
  simp only [Option.bind_eq_bind, Option.some_bind]
  rcases hfail with h | h
  · rw [h]
    rfl
  · cases hce : findIdxWithin cur.wave w with
    | none => rfl
    | some ce =>
      simp only [Option.some_bind]
      rw [h]
      rfl

/-- C2 (amended): for every adjacent order pair processed by
`merge_echelle` — any pair the loop reaches from its initial state — when
no native-grid pixel lies within the 0.1 tolerance of that pair's
crossover wavelength, in the current order's grid (the `cur_end` lookup,
line 237) or in the next order's grid (the `next_start` lookup, line
252), the merge produces no merged spectrum at all (the Python
`np.where(...)[0][0]` raises IndexError); it does not fall back to the
nearest pixel. -/
theorem merge_echelle_none_of_no_pixel (orders : List EchelleOrder)
    (cur0 nxt0 : EchelleOrder) (rest0 : List EchelleOrder)
    (cur nxt : EchelleOrder) (rest : List EchelleOrder) (ns : ℕ) (w : ℚ)
    (hrev : orders.reverse = cur0 :: nxt0 :: rest0)
    (hreach : MergeReaches cur0 (nxt0 :: rest0) 0 cur (nxt :: rest) ns)
    (hcw : crossover cur nxt = some w)
    (hfail : findIdxWithin cur.wave w = none ∨
      findIdxWithin nxt.wave w = none) :
    merge_echelle orders = none := by
  rw [merge_echelle, hrev]
  show mergeLoop cur0 (nxt0 :: rest0) 0 = none
  exact mergeLoop_none_of_reaches hreach
    (mergeLoop_fail_pair cur nxt rest ns w hcw hfail)

set_option maxRecDepth 100000 in
/-- Witness for the amended C2 theorem at the concrete three-order
spectrum `exC2b`: the loop fully resolves the first pair (crossover 990,
both lookups succeed) and reaches the second pair, whose crossover 150
has no within-tolerance pixel in the next order's grid (the `next_start`
lookup of line 252 fails). -/
theorem merge_echelle_none_witness : merge_echelle exC2b = none :=
  merge_echelle_none_of_no_pixel exC2b exC1o2 exC1o1 [exC2bO0] exC1o1 exC2bO0
    [] 2 150 (by rfl)
    (MergeReaches.step exC1o2 exC1o1 [exC2bO0] 0 990 2 2 exC1o1 [exC2bO0] 2
      (by decide!) (by decide!) (by decide!)
      (MergeReaches.refl exC1o1 [exC2bO0] 2))
    (by decide!) (Or.inr (by decide!))

set_option maxRecDepth 100000 in
/-- C2 counterexample: on `exC2` the crossover is found at wavelength 500,
no pixel of the current order lies within 0.1 of it, and the merge fails
(`none`) instead of deterministically falling back to the nearest pixel. -/
theorem merge_echelle_no_fallback_cex :
    crossover exC2cur exC2nxt = some 500 ∧
      findIdxWithin exC2cur.wave 500 = none ∧
      merge_echelle exC2 = none :=
  ⟨by decide!, by decide!, by decide!⟩

/-- C3 (amended): `correct_to_rest` collects one CCF per order except the
order at index 0: the Python loop `range(nord - 1, 0, -1)` visits orders
`nord-1, ..., 1`, each CCF is computed with velocity step `drv = 0.05`,
and the collected CCFs are combined by element-wise median; order 0 never
contributes a CCF. -/
theorem correct_to_rest_ccf_per_order (ccfFun : List ℚ → List ℚ → ℚ → List ℚ)
    (waves fluxes : List (List ℚ)) :
    (correct_to_rest_ccf_arr ccfFun waves fluxes).length = waves.length - 1 ∧
      (∀ o, o ∈ restFrameLoopOrders waves.length ↔ 1 ≤ o ∧ o < waves.length) ∧
      correct_to_rest_ccf_arr ccfFun waves fluxes =
        (restFrameLoopOrders waves.length).map
          (fun o => ccfFun (waves.getD o []) (fluxes.getD o []) (1 / 20)) ∧
      correct_to_rest_med_ccf ccfFun waves fluxes =
        npMedianAxis0 (correct_to_rest_ccf_arr ccfFun waves fluxes) := by
  refine ⟨?_, ?_, rfl, rfl⟩
  · rw [correct_to_rest_ccf_arr, List.length_map, restFrameLoopOrders,
      List.length_reverse, List.length_map, List.length_range]
  · intro o
    rw [restFrameLoopOrders]
    simp only [List.mem_reverse, List.mem_map, List.mem_range]
    constructor
    · rintro ⟨a, ha, rfl⟩
      omega
    · rintro ⟨h1, h2⟩
      exact ⟨o - 1, by omega, by omega⟩

/-- C3 counterexample: with three orders only two CCFs are computed
(orders 2 and 1), and order 0 is never visited, so it is not the case
that one CCF is computed for every order of the input spectrum. -/
theorem correct_to_rest_skips_order_zero_cex :
    restFrameLoopOrders 3 = [2, 1] ∧
      (0 : ℕ) ∉ restFrameLoopOrders 3 ∧
      (correct_to_rest_ccf_arr (fun w _ _ => w) [[10], [20], [30]]
          [[1], [2], [3]]).length = 2 ∧
      ¬(2 : ℕ) = 3 :=
  ⟨by decide, by decide, by rfl, by decide⟩

/-- C6 (confirmed): every file in a batch contributes exactly one result
record, in order; a failing per-file computation is converted into a
record whose `errors` field carries the failure message, the record for
each file depends only on that file's own computation, and the loop never
aborts early. -/
theorem get_activities_catches_per_file
    (compute : String → Except String IndexOutputs) (files : List String)
    (k : ℕ) :
    (get_activities_results compute files).length = files.length ∧
      ((get_activities_results compute files).get? k).map
          (fun r => (r.filename, r.errors)) =
        (files.get? k).map
          (fun fn => (fn, match compute fn with
            | .ok _ => none
            | .error e => some e)) := by
  constructor
  · rw [get_activities_results, List.length_map]
  · rw [get_activities_results, List.get?_map]
    cases hc : files.get? k with
    | none => rfl
    | some fn =>
      simp only [Option.map_some']
      cases hcn : compute fn with
      | ok o => simp [process_file, hcn]
      | error e => simp [process_file, hcn]

/-- A successfully processed record used by the C10 example. -/
def exC10ok : ProcessingResultM :=
  { filename := "a.fits", bjd := 1, s_index := 1, s_index_error := 1,
    halpha := 1, halpha_error := 1, hei := 1, hei_error := 1, nai_d1d2 := 1,
    nai_d1d2_error := 1, bis := 1, bis_error := 1, contrast := 1,
    fwhm := none, fwhm_error := none, errors := none }

/-- A record whose errors field is the empty string (non-None but falsy
in Python). -/
def exC10empty : ProcessingResultM :=
  { exC10ok with filename := "b.fits", errors := some "" }

/-- A record carrying a non-empty error message. -/
def exC10bad : ProcessingResultM :=
  { exC10ok with filename := "c.fits", errors := some "boom" }

/-- The C10 example batch: one success, one empty-string error, one
non-empty error. -/
def exC10 : List ProcessingResultM := [exC10ok, exC10empty, exC10bad]

/-- C10 (amended): the legacy conversion keeps exactly the results whose
`errors` field is falsy in Python (None or the empty string); every
result carrying a non-empty message is omitted, so the row count equals
the number of results with a falsy errors field, which can exceed the
number of results whose errors field is None. -/
theorem legacy_rows_filter_truthy (results : List ProcessingResultM) :
    (legacy_rows results).length =
        results.countP (fun r => !pyTruthyStr r.errors) ∧
      (∀ r ∈ legacy_rows results, r.errors = none ∨ r.errors = some "") ∧
      ∀ r ∈ results, pyTruthyStr r.errors = true → r ∉ legacy_rows results := by
  refine ⟨?_, ?_, ?_⟩
  · rw [legacy_rows, List.countP_eq_length_filter]
  · intro r hr
    have hmem := List.mem_filter.mp hr
    have hfalse : pyTruthyStr r.errors = false := by
      have := hmem.2
      cases hpt : pyTruthyStr r.errors
      · rfl
      · rw [hpt] at this; cases this
    cases herr : r.errors with
    | none => exact Or.inl rfl
    | some s =>
      rw [herr, pyTruthyStr] at hfalse
      have hs : s = "" := by
        by_contra hne
        rw [decide_eq_true hne] at hfalse
        cases hfalse
      exact Or.inr (by subst hs; rfl)
  · intro r _ htruthy hin
    have hmem := List.mem_filter.mp hin
    rw [htruthy] at hmem
    cases hmem.2

/-- Witness for the amended C10 theorem on the concrete batch `exC10`. -/
theorem legacy_rows_filter_truthy_witness :
    (legacy_rows exC10).length =
        exC10.countP (fun r => !pyTruthyStr r.errors) ∧
      (∀ r ∈ legacy_rows exC10, r.errors = none ∨ r.errors = some "") ∧
      ∀ r ∈ exC10, pyTruthyStr r.errors = true → r ∉ legacy_rows exC10 :=
  legacy_rows_filter_truthy exC10

/-- C10 counterexample: in the batch `exC10` the record with
`errors = some ""` is non-None yet kept, so the legacy output has 2 rows
while only 1 result was processed without error. -/
theorem legacy_rows_not_none_cex :
    (legacy_rows exC10).map (fun r => r.filename) = ["a.fits", "b.fits"] ∧
      (legacy_rows exC10).length = 2 ∧
      (exC10.filter (fun r => decide (r.errors = none))).length = 1 ∧
      exC10empty.errors = some "" ∧
      ¬(2 : ℕ) = 1 :=
  ⟨by rfl, by rfl, by rfl, by rfl, by decide⟩

/-- Unfolding equation of `trapz` for two or more samples. -/
theorem trapz_cons_cons (y0 y1 x0 x1 : ℚ) (ys xs : List ℚ) :
    trapz (y0 :: y1 :: ys) (x0 :: x1 :: xs) =
      (x1 - x0) * (y0 + y1) / 2 + trapz (y1 :: ys) (x1 :: xs) := rfl

/-- Trapezoidal quadrature of a constant telescopes to the constant times
the grid span. -/
theorem trapz_const (c : ℚ) :
    ∀ xs : List ℚ,
      trapz (List.replicate xs.length c) xs =
        c * (xs.getLast?.getD 0 - xs.head?.getD 0) := by
  intro xs
  induction xs with
  | nil => simp [trapz]
  | cons x0 xs ih =>
    cases xs with
    | nil => simp [trapz]
    | cons x1 rest =>
      have hlen : (x0 :: x1 :: rest).length = (x1 :: rest).length + 1 := rfl
      rw [hlen, List.replicate_succ]
      have hlen2 : (x1 :: rest).length = rest.length + 1 := rfl
      rw [hlen2, List.replicate_succ, trapz_cons_cons, ← List.replicate_succ, ← hlen2, ih]
      rw [List.getLast?_cons_cons]
      simp only [List.head?_cons, Option.getD_some]
      ring

/-- `trapz_const`, stated with an explicit sample count. -/
theorem trapz_const_of_length (c : ℚ) (xs : List ℚ) (n : ℕ)
    (hlen : xs.length = n) :
    trapz (List.replicate n c) xs =
      c * (xs.getLast?.getD 0 - xs.head?.getD 0) := by
  subst hlen
  exact trapz_const c xs

/-- Interpolation over node pairs whose second components are all `c` can
only return `c`. -/
theorem interpAux_const_val (x c : ℚ) :
    ∀ (ps : List (ℚ × ℚ)) (v : ℚ), (∀ p ∈ ps, p.2 = c) →
      interpAux x ps = some v → v = c := by
  intro ps
  induction ps with
  | nil => intro v _ h; cases h
  | cons p0 ps ih =>
    intro v hc h
    cases ps with
    | nil => cases h
    | cons p1 ps2 =>
      rw [interpAux] at h
      by_cases h1 : x ≤ p1.1
      · rw [if_pos h1] at h
        by_cases h0 : p0.1 ≤ x
        · rw [if_pos h0] at h
          have hp0 : p0.2 = c := hc p0 (by simp)
          have hp1 : p1.2 = c := hc p1 (by simp)
          rw [hp0, hp1] at h
          have hv := Option.some.inj h
          rw [← hv]
          simp
        · rw [if_neg h0] at h; cases h
      · rw [if_neg h1] at h
        exact ih v (fun p hp => hc p (by simp [hp])) h

/-- If every node lies strictly left of the query, interpolation fails
(out of range on the right). -/
theorem interpAux_none_right (x : ℚ) :
    ∀ ps : List (ℚ × ℚ), (∀ p ∈ ps, p.1 < x) → interpAux x ps = none := by
  intro ps
  induction ps with
  | nil => intro _; rfl
  | cons p0 ps ih =>
    intro hlt
    cases ps with
    | nil => rfl
    | cons p1 ps2 =>
      rw [interpAux]
      rw [if_neg (not_le.mpr (hlt p1 (by simp)))]
      exact ih (fun p hp => hlt p (by simp [hp]))

/-- If every node lies strictly right of the query, interpolation fails:
out of range on the left, or fewer than two nodes. -/
theorem interpAux_none_all_gt (x : ℚ) (ps : List (ℚ × ℚ))
    (h : ∀ p ∈ ps, x < p.1) : interpAux x ps = none := by
  cases ps with
  | nil => rfl
  | cons p0 ps1 =>
    cases ps1 with
    | nil => rfl
    | cons p1 ps2 =>
      rw [interpAux]
      rw [if_pos (le_of_lt (h p1 (by simp)))]
      rw [if_neg (not_le.mpr (h p0 (by simp)))]

/-- Interpolation over unit-valued nodes succeeds with value 1 whenever
the query lies between the first and the last node. -/
theorem interpAux_one (x : ℚ) :
    ∀ ps : List (ℚ × ℚ), (∀ p ∈ ps, p.2 = 1) →
      (∀ pa, ps.head? = some pa → pa.1 ≤ x) →
      (∀ pb, ps.getLast? = some pb → x ≤ pb.1) →
      2 ≤ ps.length → interpAux x ps = some 1 := by
  intro ps
  induction ps with
  | nil => intro _ _ _ h2; simp at h2
  | cons p0 ps ih =>
    intro hone hh hl h2
    cases ps with
    | nil => simp at h2
    | cons p1 ps2 =>
      have hp0 : p0.2 = 1 := hone p0 (by simp)
      have hp1 : p1.2 = 1 := hone p1 (by simp)
      have h0x : p0.1 ≤ x := hh p0 rfl
      by_cases h1 : x ≤ p1.1
      · rw [interpAux, if_pos h1, if_pos h0x, hp0, hp1]
        simp
      · cases ps2 with
        | nil =>
          exact absurd (hl p1 rfl) h1
        | cons p2 ps3 =>
          rw [interpAux, if_neg h1]
          apply ih (fun p hp => hone p (by simp [List.mem_cons] at hp ⊢; tauto))
            (fun pa hpa => by
              obtain rfl := Option.some.inj hpa
              exact le_of_lt (not_le.mp h1))
            (fun pb hpb => hl pb (by rw [List.getLast?_cons_cons]; exact hpb))
            (by simp)

/-- `optionMapAll` preserves length on success. -/
theorem optionMapAll_length {α β : Type} (f : α → Option β) :
    ∀ (l : List α) (r : List β), optionMapAll f l = some r →
      r.length = l.length := by
  intro l
  induction l with
  | nil =>
    intro r h
    rw [optionMapAll] at h
    obtain rfl := Option.some.inj h
    rfl
  | cons a l ih =>
    intro r h
    rw [optionMapAll] at h
    cases hfa : f a with
    | none => rw [hfa] at h; simp at h
    | some b =>
      rw [hfa] at h
      simp only [Option.bind_eq_bind, Option.some_bind] at h
      cases hrest : optionMapAll f l with
      | none => rw [hrest] at h; simp at h
      | some r1 =>
        rw [hrest] at h
        simp only [Option.some_bind, Option.pure_def] at h
        obtain rfl := Option.some.inj h
        simp [ih r1 hrest]

/-- Every output element of a successful `optionMapAll` comes from a
successful evaluation on some input element. -/
theorem optionMapAll_mem {α β : Type} (f : α → Option β) :
    ∀ (l : List α) (r : List β), optionMapAll f l = some r →
      ∀ b ∈ r, ∃ a ∈ l, f a = some b := by
  intro l
  induction l with
  | nil =>
    intro r h b hb
    rw [optionMapAll] at h
    obtain rfl := Option.some.inj h
    cases hb
  | cons a l ih =>
    intro r h b hb
    rw [optionMapAll] at h
    cases hfa : f a with
    | none => rw [hfa] at h; simp at h
    | some b1 =>
      rw [hfa] at h
      simp only [Option.bind_eq_bind, Option.some_bind] at h
      cases hrest : optionMapAll f l with
      | none => rw [hrest] at h; simp at h
      | some r1 =>
        rw [hrest] at h
        simp only [Option.some_bind, Option.pure_def] at h
        obtain rfl := Option.some.inj h
        rcases List.mem_cons.mp hb with rfl | hb1
        · exact ⟨a, by simp, hfa⟩
        · obtain ⟨a1, ha1, hfa1⟩ := ih r1 hrest b hb1
          exact ⟨a1, by simp [ha1], hfa1⟩

/-- `optionMapAll` fails as soon as one element fails. -/
theorem optionMapAll_none {α β : Type} (f : α → Option β) :
    ∀ (l : List α) (a : α), a ∈ l → f a = none → optionMapAll f l = none := by
  intro l
  induction l with
  | nil => intro a ha _; cases ha
  | cons x l ih =>
    intro a ha hfa
    rw [optionMapAll]
    rcases List.mem_cons.mp ha with rfl | ha1
    · rw [hfa]; rfl
    · cases hfx : f x with
      | none => rfl
      | some b =>
        simp only [Option.bind_eq_bind, Option.some_bind]
        rw [ih a ha1 hfa]
        rfl

/-- Every element of a Python slice is an element of the source list. -/
theorem pySlice_subset {α : Type} (l : List α) (s e : ℤ) :
    ∀ x ∈ pySlice l s e, x ∈ l := by
  intro x hx
  exact List.mem_of_mem_take (List.mem_of_mem_drop hx)

/-- `linspace` always has exactly `n` samples. -/
theorem linspace_length (a b : ℚ) (n : ℕ) : (linspace a b n).length = n := by
  rw [linspace]
  split_ifs with h0 h1
  · simp [h0]
  · simp [h1]
  · simp

/-- The first `linspace` sample is the left endpoint. -/
theorem linspace_head? (a b : ℚ) (n : ℕ) (hn : 1 ≤ n) :
    (linspace a b n).head? = some a := by
  rw [linspace]
  split_ifs with h0 h1
  · omega
  · rfl
  · obtain ⟨m, rfl⟩ : ∃ m, n = m + 1 := ⟨n - 1, by omega⟩
    rw [List.range_succ_eq_map]
    simp

/-- The last `linspace` sample is the right endpoint (two or more
samples). -/
theorem linspace_getLast? (a b : ℚ) (n : ℕ) (hn : 2 ≤ n) :
    (linspace a b n).getLast? = some b := by
  rw [linspace]
  rw [if_neg (by omega), if_neg (by omega)]
  obtain ⟨m, rfl⟩ : ∃ m, n = m + 1 := ⟨n - 1, by omega⟩
  rw [List.range_succ, List.map_append, List.map_cons, List.map_nil]
  rw [List.getLast?_concat]
  congr 1
  have hm : ((m : ℚ)) ≠ 0 := by
    have : 1 ≤ m := by omega
    exact_mod_cast Nat.cast_ne_zero.mpr (by omega)
  have hmq : ((m + 1 : ℕ) : ℚ) - 1 = (m : ℚ) := by push_cast; ring
  rw [hmq, mul_div_assoc, div_self hm, mul_one]
  ring

/-- Every `linspace` sample lies between the endpoints. -/
theorem linspace_mem_bounds (a b : ℚ) (n : ℕ) (hab : a ≤ b) (x : ℚ)
    (hx : x ∈ linspace a b n) : a ≤ x ∧ x ≤ b := by
  rw [linspace] at hx
  split_ifs at hx with h0 h1
  · cases hx
  · obtain rfl : x = a := by simpa using hx
    exact ⟨le_rfl, hab⟩
  · obtain ⟨k, hk, rfl⟩ := List.mem_map.mp hx
    rw [List.mem_range] at hk
    have hn : 2 ≤ n := by omega
    have hn1 : (0 : ℚ) < (n : ℚ) - 1 := by
      have h2 : (2 : ℚ) ≤ (n : ℚ) := by exact_mod_cast hn
      linarith
    have hk1 : (k : ℚ) ≤ (n : ℚ) - 1 := by
      have hklt : (k : ℚ) < (n : ℚ) := by exact_mod_cast hk
      have hk2 : (k + 1 : ℚ) ≤ (n : ℚ) := by
        exact_mod_cast Nat.succ_le_of_lt hk
      linarith
    have hk0 : (0 : ℚ) ≤ (k : ℚ) := by positivity
    have hnum : (0 : ℚ) ≤ (b - a) * k := mul_nonneg (by linarith) hk0
    constructor
    · have hfrac : (0 : ℚ) ≤ (b - a) * k / ((n : ℚ) - 1) :=
        div_nonneg hnum (le_of_lt hn1)
      linarith
    · have hmul : (b - a) * k ≤ (b - a) * ((n : ℚ) - 1) :=
        mul_le_mul_of_nonneg_left hk1 (by linarith)
      have hfrac : (b - a) * k / ((n : ℚ) - 1) ≤ b - a := by
        rw [div_le_iff hn1]
        calc (b - a) * k ≤ (b - a) * ((n : ℚ) - 1) := hmul
          _ = (b - a) * ((n : ℚ) - 1) := rfl
      linarith

/-- Zipping a list with a matching-length constant list is a `map`. -/
theorem zip_replicate_one (xs : List ℚ) :
    xs.zip (List.replicate xs.length (1 : ℚ)) = xs.map (fun u => (u, 1)) := by
  induction xs with
  | nil => rfl
  | cons y ys ih => simp [List.replicate_succ, ih]

/-- `interp1dAt` on a grid with constant unit values returns 1 for every
query between the endpoints of the grid. -/
theorem interp1dAt_ones (xs : List ℚ) (x a b : ℚ)
    (hlen : 2 ≤ xs.length) (hh : xs.head? = some a) (hl : xs.getLast? = some b)
    (ha : a ≤ x) (hb : x ≤ b) :
    interp1dAt xs (List.replicate xs.length 1) x = some 1 := by
  rw [interp1dAt]
  rw [zip_replicate_one]
  apply interpAux_one
  · intro p hp
    obtain ⟨u, _, rfl⟩ := List.mem_map.mp hp
    rfl
  · intro pa hpa
    rw [List.head?_map, hh] at hpa
    obtain rfl := Option.some.inj hpa
    exact ha
  · intro pb hpb
    rw [List.getLast?_map, hl] at hpb
    obtain rfl := Option.some.inj hpb
    exact hb
  · rw [List.length_map]; exact hlen

/-- Unfolded form of `get_line_flux` for the square filter without an
error array, once the band indices are known and nonreversed. -/
theorem get_line_flux_eq (sq : ℚ → ℚ) (waves flux : List ℚ) (line width : ℚ)
    (i e : ℕ)
    (hie : get_ini_end waves line (width / 2) = some (i, e))
    (hei : ¬e < i) :
    get_line_flux sq waves flux line width FiltShape.square none =
      (optionMapAll
          (interp1dAt (pySlice waves ((i : ℤ) - 2) ((e : ℤ) + 2))
            (pySlice flux ((i : ℤ) - 2) ((e : ℤ) + 2)))
          (linspace (line - width / 2) (line + width / 2) (e - i))).bind
        (fun intp_flux =>
          some (trapz
              (List.zipWith (· * ·) intp_flux
                ((linspace (line - width / 2) (line + width / 2) (e - i)).map
                  (get_response line width FiltShape.square).1))
              (linspace (line - width / 2) (line + width / 2) (e - i)) /
            trapz
              ((linspace (line - width / 2) (line + width / 2) (e - i)).map
                (get_response line width FiltShape.square).1)
              (linspace (line - width / 2) (line + width / 2) (e - i)), none)) := by
  simp only [get_line_flux]
  rw [show (get_response line width FiltShape.square).2 = width / 2 from rfl]
  rw [hie]
  simp only [Option.bind_eq_bind, Option.some_bind]
  rw [if_neg hei]
  rfl

/-- The running-best argmin helper stays below the total index range. -/
theorem argminAux_lt :
    ∀ (xs : List ℚ) (i bi : ℕ) (bv : ℚ), bi < i →
      argminAux xs i bi bv < i + xs.length := by
  intro xs
  induction xs with
  | nil => intro i bi bv h; rw [argminAux]; omega
  | cons xq xs ih =>
    intro i bi bv h
    rw [argminAux]
    by_cases hx : xq < bv
    · rw [if_pos hx]
      have h2 := ih (i + 1) i xq (by omega)
      simp only [List.length_cons]
      omega
    · rw [if_neg hx]
      have h2 := ih (i + 1) bi bv (by omega)
      simp only [List.length_cons]
      omega

/-- `np.argmin` returns a valid index. -/
theorem argminQ_lt_length (l : List ℚ) (i : ℕ) (h : argminQ l = some i) :
    i < l.length := by
  cases l with
  | nil => cases h
  | cons x xs =>
    rw [argminQ] at h
    obtain rfl := Option.some.inj h
    have h2 := argminAux_lt xs 1 0 x (by omega)
    simp only [List.length_cons]
    omega

/-- On a strictly decreasing vector the running-best argmin lands on the
final entry. -/
theorem argminAux_strictAnti :
    ∀ (xs : List ℚ) (i bi : ℕ) (bv : ℚ), List.Chain (· > ·) bv xs →
      xs ≠ [] → argminAux xs i bi bv = i + xs.length - 1 := by
  intro xs
  induction xs with
  | nil => intro _ _ _ _ hne; cases hne rfl
  | cons xq xs ih =>
    intro i bi bv hch hne
    rw [List.chain_cons] at hch
    rw [argminAux, if_pos hch.1]
    cases xs with
    | nil => rw [argminAux]; simp only [List.length_cons, List.length_nil]; omega
    | cons y ys =>
      have h2 := ih (i + 1) i xq hch.2 (by simp)
      rw [h2]
      simp only [List.length_cons]
      omega

/-- `np.argmin` of a strictly decreasing vector is its last index. -/
theorem argminQ_strictAnti (l : List ℚ) (hl : l.Chain' (· > ·)) (hne : l ≠ []) :
    argminQ l = some (l.length - 1) := by
  cases l with
  | nil => cases hne rfl
  | cons x xs =>
    rw [argminQ]
    congr 1
    have hch : List.Chain (· > ·) x xs := hl
    cases xs with
    | nil => rw [argminAux]; rfl
    | cons y ys =>
      have h2 := argminAux_strictAnti (y :: ys) 1 0 x hch (by simp)
      rw [h2]
      simp only [List.length_cons]
      omega

/-- With a target strictly above every pixel, the nearest-index search
clamps to the last pixel: the distances strictly decrease along the
strictly increasing grid. -/
theorem argminQ_dist_last (l : List ℚ) (t : ℚ) (hs : l.Chain' (· < ·))
    (hne : l ≠ []) (hgt : ∀ x ∈ l, x < t) :
    argminQ (l.map (fun xi => |xi - t|)) = some (l.length - 1) := by
  have hpw : l.Pairwise (· < ·) := List.chain'_iff_pairwise.mp hs
  have hpw2 : (l.map (fun xi => |xi - t|)).Pairwise (· > ·) := by
    rw [List.pairwise_map]
    apply List.Pairwise.imp_of_mem ?_ hpw
    intro a b ha hb hab
    have h1 : a < t := hgt a ha
    have h2 : b < t := hgt b hb
    rw [abs_of_neg (by linarith : a - t < 0), abs_of_neg (by linarith : b - t < 0)]
    simp only [gt_iff_lt, neg_sub]
    linarith
  have hch : (l.map (fun xi => |xi - t|)).Chain' (· > ·) :=
    List.chain'_iff_pairwise.mpr hpw2
  have hmapne : l.map (fun xi => |xi - t|) ≠ [] := by
    simpa using hne
  rw [argminQ_strictAnti _ hch hmapne, List.length_map]

/-- `get_ini_end` never fails on a nonempty wavelength array. -/
theorem get_ini_end_isSome (xw : List ℚ) (mid wd : ℚ) (hne : xw ≠ []) :
    (get_ini_end xw mid wd).isSome = true := by
  cases xw with
  | nil => cases hne rfl
  | cons x0 xl =>
    rw [get_ini_end]
    simp only [List.map_cons, argminQ, Option.bind_eq_bind, Option.some_bind,
      Option.pure_def]
    rfl

/-- Inverting `get_ini_end`: the returned pair consists of the two
nearest-index search results. -/
theorem get_ini_end_inv (xw : List ℚ) (mid wd : ℚ) (i e : ℕ)
    (h : get_ini_end xw mid wd = some (i, e)) :
    argminQ (xw.map (fun xi => |xi - (mid - wd)|)) = some i ∧
      argminQ (xw.map (fun xi => |xi - (mid + wd)|)) = some e := by
  rw [get_ini_end] at h
  cases h1 : argminQ (xw.map (fun xi => |xi - (mid - wd)|)) with
  | none =>
    rw [h1] at h
    simp at h
  | some i1 =>
    rw [h1] at h
    simp only [Option.bind_eq_bind, Option.some_bind] at h
    cases h2 : argminQ (xw.map (fun xi => |xi - (mid + wd)|)) with
    | none =>
      rw [h2] at h
      simp at h
    | some e1 =>
      rw [h2] at h
      simp only [Option.some_bind, Option.pure_def, Option.some.injEq,
        Prod.mk.injEq] at h
      obtain ⟨rfl, rfl⟩ := h
      exact ⟨rfl, rfl⟩

/-- The running-best argmin keeps its current best when no later entry
improves on the best value (first occurrence wins, as in `np.argmin`). -/
theorem argminAux_keep :
    ∀ (xs : List ℚ) (i bi : ℕ) (bv : ℚ), (∀ y ∈ xs, ¬y < bv) →
      argminAux xs i bi bv = bi := by
  intro xs
  induction xs with
  | nil => intro i bi bv _; rfl
  | cons x xs ih =>
    intro i bi bv h
    rw [argminAux, if_neg (h x (by simp))]
    exact ih (i + 1) bi bv (fun y hy => h y (by simp [hy]))

/-- With a target strictly below every pixel, the nearest-index search
clamps to the first pixel: the distances strictly increase along the
strictly increasing grid. -/
theorem argminQ_dist_first (l : List ℚ) (t : ℚ) (hs : l.Chain' (· < ·))
    (hne : l ≠ []) (hlt : ∀ x ∈ l, t < x) :
    argminQ (l.map (fun xi => |xi - t|)) = some 0 := by
  cases l with
  | nil => cases hne rfl
  | cons x0 ws =>
    rw [List.map_cons, argminQ]
    congr 1
    apply argminAux_keep
    intro y hy
    obtain ⟨xj, hxj, rfl⟩ := List.mem_map.mp hy
    have hpw : (x0 :: ws).Pairwise (· < ·) := List.chain'_iff_pairwise.mp hs
    have hx0j : x0 < xj := (List.pairwise_cons.mp hpw).1 xj hxj
    have h0 : t < x0 := hlt x0 (by simp)
    have hj : t < xj := hlt xj (by simp [hxj])
    show ¬|xj - t| < |x0 - t|
    rw [abs_of_pos (by linarith : (0 : ℚ) < xj - t),
      abs_of_pos (by linarith : (0 : ℚ) < x0 - t)]
    intro hcon
    linarith

/-- A `head?` value is a member of the list. -/
theorem mem_of_head?_eq_some {α : Type} {l : List α} {a : α}
    (h : l.head? = some a) : a ∈ l := by
  cases l with
  | nil => cases h
  | cons x xs =>
    obtain rfl : x = a := Option.some.inj h
    exact List.mem_cons_self x xs

/-- The fractional uncertainty of `0.5 * d` with propagated numerator
`sqrt((a/2)^2 + (b/2)^2)` equals the fractional uncertainty written in
the code, `sqrt(a^2 + b^2) / d`, once squared. -/
theorem half_quad_frac_sq (a b d : ℝ) :
    (Real.sqrt ((a / 2) ^ 2 + (b / 2) ^ 2) / (0.5 * d)) ^ 2 =
      (Real.sqrt (a ^ 2 + b ^ 2) / d) ^ 2 := by
  have hL : (Real.sqrt ((a / 2) ^ 2 + (b / 2) ^ 2) / (0.5 * d)) ^ 2 =
      ((a / 2) ^ 2 + (b / 2) ^ 2) / (0.5 * d) ^ 2 := by
    rw [div_pow, Real.sq_sqrt (by positivity)]
  have hR : (Real.sqrt (a ^ 2 + b ^ 2) / d) ^ 2 = (a ^ 2 + b ^ 2) / d ^ 2 := by
    rw [div_pow, Real.sq_sqrt (by positivity)]
  rw [hL, hR]
  have h1 : (a / 2) ^ 2 + (b / 2) ^ 2 = (a ^ 2 + b ^ 2) / 4 := by ring
  have h2 : (0.5 * d) ^ 2 = d ^ 2 / 4 := by ring
  rw [h1, h2]
  exact div_div_div_cancel_right₀ (by norm_num) _ _

/-- C7 (confirmed): each of the four index computations returns the
absolute error `Index * sqrt((sigma_num/num)^2 + (sigma_den/den)^2)`,
with `num`/`den` the actual numerator and denominator of that index and
`sigma_num`/`sigma_den` their quadrature-propagated uncertainties.  For
H-alpha, HeI and NaI the 0.5 factor of the true denominator cancels in
the fractional uncertainty, leaving the form written in the code. -/
theorem index_errors_absolute (NV sNV NR sNR NK sNK NH sNH FHa sFHa F1 sF1
    F2 sF2 FHeI sFHeI G1 sG1 G2 sG2 D1 sD1 D2 sD2 L sL R sR : ℝ) :
    (s_index_calc NV sNV NR sNR NK sNK NH sNH).2 =
        spec_error_abs (s_index_calc NV sNV NR sNR NK sNK NH sNH).1
          (NH + NK) (Real.sqrt (sNH ^ 2 + sNK ^ 2))
          (NR + NV) (Real.sqrt (sNV ^ 2 + sNR ^ 2)) ∧
      (halpha_calc FHa sFHa F1 sF1 F2 sF2).2 =
        spec_error_abs (halpha_calc FHa sFHa F1 sF1 F2 sF2).1
          FHa sFHa
          (0.5 * (F1 + F2)) (Real.sqrt ((sF1 / 2) ^ 2 + (sF2 / 2) ^ 2)) ∧
      (hei_calc FHeI sFHeI G1 sG1 G2 sG2).2 =
        spec_error_abs (hei_calc FHeI sFHeI G1 sG1 G2 sG2).1
          FHeI sFHeI
          (0.5 * (G1 + G2)) (Real.sqrt ((sG1 / 2) ^ 2 + (sG2 / 2) ^ 2)) ∧
      (nai_calc D1 sD1 D2 sD2 L sL R sR).2 =
        spec_error_abs (nai_calc D1 sD1 D2 sD2 L sL R sR).1
          (D1 + D2) (Real.sqrt (sD1 ^ 2 + sD2 ^ 2))
          (R + L) (Real.sqrt (sL ^ 2 + sR ^ 2)) := by
  refine ⟨rfl, ?_, ?_, rfl⟩
  · rw [halpha_calc, spec_error_abs]
    rw [half_quad_frac_sq sF1 sF2 (F1 + F2)]
  · rw [hei_calc, spec_error_abs]
    rw [half_quad_frac_sq sG1 sG2 (G1 + G2)]

set_option maxRecDepth 100000 in
/-- C4 (amended): for every positive width, the square response filter of
`get_response` is the indicator of `[line - width/2, line + width/2]`:
the uniform value 1 on that closed interval and 0 outside.  The support
half-width is half of the width argument supplied by the caller, because
`get_response` halves the width for the square filter. -/
theorem get_response_square_support (line width x : ℚ) (hw : 0 < width) :
    (get_response line width FiltShape.square).1 x =
      if line - width / 2 ≤ x ∧ x ≤ line + width / 2 then 1 else 0 := by
  have hab : line - width / 2 ≤ line + width / 2 := by linarith
  show interp1dFill0 (linspace (line - width / 2) (line + width / 2) 1000)
      (List.replicate 1000 1) x =
    if line - width / 2 ≤ x ∧ x ≤ line + width / 2 then 1 else 0
  rw [interp1dFill0]
  by_cases hin : line - width / 2 ≤ x ∧ x ≤ line + width / 2
  · rw [if_pos hin]
    have hlen : (linspace (line - width / 2) (line + width / 2) 1000).length
        = 1000 := linspace_length _ _ _
    have h1 := interp1dAt_ones
      (linspace (line - width / 2) (line + width / 2) 1000) x
      (line - width / 2) (line + width / 2)
      (by rw [hlen]; norm_num)
      (linspace_head? _ _ _ (by norm_num))
      (linspace_getLast? _ _ _ (by norm_num)) hin.1 hin.2
    rw [hlen] at h1
    rw [h1]
    rfl
  · rw [if_neg hin]
    rcases not_and_or.mp hin with h | h
    · have hnone : interp1dAt
          (linspace (line - width / 2) (line + width / 2) 1000)
          (List.replicate 1000 1) x = none := by
        rw [interp1dAt]
        apply interpAux_none_all_gt
        intro p hp
        have hx1 := (List.of_mem_zip hp).1
        have hbd := (linspace_mem_bounds _ _ _ hab _ hx1).1
        have hxa : x < line - width / 2 := not_le.mp h
        linarith
      rw [hnone]
      rfl
    · have hnone : interp1dAt
          (linspace (line - width / 2) (line + width / 2) 1000)
          (List.replicate 1000 1) x = none := by
        rw [interp1dAt]
        apply interpAux_none_right
        intro p hp
        have hx1 := (List.of_mem_zip hp).1
        have hbd := (linspace_mem_bounds _ _ _ hab _ hx1).2
        have hbx : line + width / 2 < x := not_le.mp h
        linarith
      rw [hnone]
      rfl

set_option maxRecDepth 100000 in
/-- Witness for the amended C4 theorem at line 0, width 2, query 1/2. -/
theorem get_response_square_support_witness :
    (get_response 0 2 FiltShape.square).1 (1 / 2) =
      if (0 : ℚ) - 2 / 2 ≤ 1 / 2 ∧ (1 / 2 : ℚ) ≤ 0 + 2 / 2 then 1 else 0 :=
  get_response_square_support 0 2 (1 / 2) (by norm_num)

set_option maxRecDepth 100000 in
/-- C4 counterexample: with width 2 the claimed support
`[center - 2, center + 2]` is wrong: the response at 3/2 (inside the
claimed interval) is 0 while the response at 0 is 1, so the response is
not a uniform constant on `[center - width, center + width]` where width
is the caller's argument. -/
theorem get_response_square_support_cex :
    (get_response 0 2 FiltShape.square).1 0 = 1 ∧
      (get_response 0 2 FiltShape.square).1 (3 / 2) = 0 ∧
      ((-2 : ℚ) ≤ 3 / 2 ∧ (3 / 2 : ℚ) ≤ 2) ∧ ¬(1 : ℚ) = 0 :=
  ⟨by decide!, by decide!, by decide!, by decide!⟩

/-- C9 (amended): on any wavelength grid with constant flux `k`, a
square band of positive width whose located pixel range spans at least
two band-grid samples integrates, when it succeeds, to exactly `k`,
independent of the band width.  (Degenerate located ranges of fewer than
two samples divide 0 by 0 instead.) -/
theorem get_line_flux_const (sq : ℚ → ℚ) (waves : List ℚ)
    (k line width v : ℚ) (i e : ℕ)
    (hw : 0 < width)
    (hie : get_ini_end waves line (width / 2) = some (i, e))
    (hn : 2 ≤ e - i)
    (hv : get_line_flux sq waves (List.replicate waves.length k) line width
        FiltShape.square none = some (v, none)) :
    v = k := by
  rw [get_line_flux_eq sq waves (List.replicate waves.length k) line width i e
    hie (by omega)] at hv
  cases hmap : optionMapAll
      (interp1dAt (pySlice waves ((i : ℤ) - 2) ((e : ℤ) + 2))
        (pySlice (List.replicate waves.length k) ((i : ℤ) - 2) ((e : ℤ) + 2)))
      (linspace (line - width / 2) (line + width / 2) (e - i)) with
  | none => rw [hmap] at hv; cases hv
  | some fl =>
    rw [hmap] at hv
    simp only [Option.some_bind, Option.some.injEq, Prod.mk.injEq] at hv
    obtain ⟨hveq, -⟩ := hv
    have hwlen : (linspace (line - width / 2) (line + width / 2) (e - i)).length
        = e - i := linspace_length _ _ _
    have hfl_len : fl.length = e - i := by
      have h2 := optionMapAll_length _ _ _ hmap
      omega
    have hfl_mem : ∀ y ∈ fl, y = k := by
      intro y hy
      obtain ⟨xq, _, hfx⟩ := optionMapAll_mem _ _ _ hmap y hy
      rw [interp1dAt] at hfx
      apply interpAux_const_val xq k _ y _ hfx
      intro p hp
      have h2 := (List.of_mem_zip hp).2
      have h2s := pySlice_subset _ _ _ _ h2
      exact List.eq_of_mem_replicate h2s
    have hfl : fl = List.replicate (e - i) k :=
      List.eq_replicate_iff.mpr ⟨hfl_len, hfl_mem⟩
    have hresp : (linspace (line - width / 2) (line + width / 2) (e - i)).map
        (get_response line width FiltShape.square).1 =
        List.replicate (e - i) 1 := by
      apply List.eq_replicate_iff.mpr
      constructor
      · rw [List.length_map, hwlen]
      · intro y hy
        obtain ⟨xq, hxq, rfl⟩ := List.mem_map.mp hy
        have hbd := linspace_mem_bounds _ _ _ (by linarith) _ hxq
        rw [get_response_square_support _ _ _ hw, if_pos hbd]
    rw [hfl, hresp] at hveq
    rw [List.zipWith_replicate] at hveq
    simp only [min_self, mul_one] at hveq
    have hA := linspace_head? (line - width / 2) (line + width / 2) (e - i)
      (by omega)
    have hB := linspace_getLast? (line - width / 2) (line + width / 2) (e - i)
      (by omega)
    have htr1 : trapz (List.replicate (e - i) k)
        (linspace (line - width / 2) (line + width / 2) (e - i)) = k * width := by
      rw [trapz_const_of_length k _ _ hwlen, hA, hB]
      simp only [Option.getD_some]
      ring
    have htr2 : trapz (List.replicate (e - i) 1)
        (linspace (line - width / 2) (line + width / 2) (e - i)) = width := by
      rw [trapz_const_of_length 1 _ _ hwlen, hA, hB]
      simp only [Option.getD_some]
      ring
    rw [htr1, htr2] at hveq
    rw [← hveq, mul_div_assoc, div_self (ne_of_gt hw), mul_one]

set_option maxRecDepth 100000 in
/-- Witness for the amended C9 theorem: constant flux 7 on the grid
0..10, square band centred at 5 with width 2. -/
theorem get_line_flux_const_witness : (7 : ℚ) = 7 :=
  get_line_flux_const (fun x => x) exGrid11 7 5 2 7 4 6 (by norm_num)
    (by decide!) (by norm_num) (by decide!)

set_option maxRecDepth 100000 in
/-- C9 counterexample: a square band whose located pixel range is
degenerate (end - ini = 0) integrates the constant flux 5 to 0/0 — NaN
in the floating-point code, 0 in the rational model — and not to 5. -/
theorem get_line_flux_const_cex :
    get_line_flux (fun x => x) [0, 100] (List.replicate 2 5) 10 4
        FiltShape.square none = some (0, none) ∧
      get_ini_end [0, 100] 10 (4 / 2) = some (0, 0) ∧
      ¬(0 : ℚ) = 5 :=
  ⟨by decide!, by decide!, by decide!⟩

/-- C8 (amended): whenever a band edge `line +- width/2` leaves the
wavelength coverage, the nearest-index search (`get_ini_end`) itself
never raises and clamps to the boundary pixel — index 0 when the lower
band edge is below the coverage, the last index when the upper edge is
above — but the integration never proceeds as a truncation: when the
band grid retains an out-of-coverage sample (at least two samples for an
upper overrun, at least one for a lower overrun, since `np.linspace`
includes its start point for one sample and both endpoints for two or
more), the flux interpolation fails (the bounds ValueError of interp1d
under the default `bounds_error=True`) and `get_line_flux` produces no
value; when instead the located range is empty (`end = ini`), over a
pixel slice of at least two pixels (where Python builds the interpolant
without evaluating it; a shorter slice is rejected at construction), the
integral is the indeterminate `0/0` — NaN in floating point — not a
truncated flux. -/
theorem get_line_flux_beyond_coverage (sq : ℚ → ℚ)
    (waves flux : List ℚ) (line width : ℚ) (i e : ℕ)
    (hne : waves ≠ []) (hsort : waves.Chain' (· < ·))
    (hie : get_ini_end waves line (width / 2) = some (i, e)) :
    (∀ mid wd : ℚ, (get_ini_end waves mid wd).isSome = true) ∧
      ((∀ x ∈ waves, x < line + width / 2) →
        e = waves.length - 1 ∧
          (2 ≤ e - i →
            get_line_flux sq waves flux line width FiltShape.square none =
              none)) ∧
      ((∀ x ∈ waves, line - width / 2 < x) →
        i = 0 ∧
          (1 ≤ e →
            get_line_flux sq waves flux line width FiltShape.square none =
              none)) ∧
      (e = i → 2 ≤ (pySlice waves ((i : ℤ) - 2) ((e : ℤ) + 2)).length →
        get_line_flux sq waves flux line width FiltShape.square none =
          some (0 / 0, none)) := by
  obtain ⟨hinv1, hinv2⟩ := get_ini_end_inv waves line (width / 2) i e hie
  refine ⟨fun mid wd => get_ini_end_isSome waves mid wd hne, ?_, ?_, ?_⟩
  · intro hcov
    have he : e = waves.length - 1 :=
      Option.some.inj
        (hinv2.symm.trans (argminQ_dist_last waves _ hsort hne hcov))
    refine ⟨he, ?_⟩
    intro hn
    rw [get_line_flux_eq sq waves flux line width i e hie (by omega)]
    have hBmem : line + width / 2 ∈
        linspace (line - width / 2) (line + width / 2) (e - i) :=
      List.mem_of_getLast?_eq_some (linspace_getLast? _ _ _ hn)
    have hfail : interp1dAt (pySlice waves ((i : ℤ) - 2) ((e : ℤ) + 2))
        (pySlice flux ((i : ℤ) - 2) ((e : ℤ) + 2)) (line + width / 2) =
          none := by
      rw [interp1dAt]
      apply interpAux_none_right
      intro p hp
      exact hcov _ (pySlice_subset _ _ _ _ (List.of_mem_zip hp).1)
    rw [optionMapAll_none _ _ _ hBmem hfail]
    rfl
  · intro hcov
    have hi : i = 0 :=
      Option.some.inj
        (hinv1.symm.trans (argminQ_dist_first waves _ hsort hne hcov))
    refine ⟨hi, ?_⟩
    intro he1
    rw [get_line_flux_eq sq waves flux line width i e hie (by omega)]
    have hn1 : 1 ≤ e - i := by omega
    have hAmem : line - width / 2 ∈
        linspace (line - width / 2) (line + width / 2) (e - i) :=
      mem_of_head?_eq_some (linspace_head? _ _ _ hn1)
    have hfail : interp1dAt (pySlice waves ((i : ℤ) - 2) ((e : ℤ) + 2))
        (pySlice flux ((i : ℤ) - 2) ((e : ℤ) + 2)) (line - width / 2) =
          none := by
      rw [interp1dAt]
      apply interpAux_none_all_gt
      intro p hp
      exact hcov _ (pySlice_subset _ _ _ _ (List.of_mem_zip hp).1)
    rw [optionMapAll_none _ _ _ hAmem hfail]
    rfl
  · intro heq _
    rw [get_line_flux_eq sq waves flux line width i e hie (by omega)]
    subst heq
    rw [Nat.sub_self]
    rfl

set_option maxRecDepth 100000 in
/-- Witness for the amended C8 theorem: on the two-pixel grid `[5, 6]`
the band centred at 11/2 with supplied width 11 (half-width 11/2)
overruns the coverage on both sides; the nearest-index search clamps to
the boundary pair (0, 1) and the integration fails rather than
truncating. -/
theorem get_line_flux_beyond_coverage_witness :
    (∀ mid wd : ℚ, (get_ini_end exGrid2 mid wd).isSome = true) ∧
      ((∀ x ∈ exGrid2, x < 11 / 2 + 11 / 2) →
        1 = exGrid2.length - 1 ∧
          (2 ≤ (1 : ℕ) - 0 →
            get_line_flux (fun u => u) exGrid2 exGrid2 (11 / 2) 11
              FiltShape.square none = none)) ∧
      ((∀ x ∈ exGrid2, 11 / 2 - 11 / 2 < x) →
        (0 : ℕ) = 0 ∧
          ((1 : ℕ) ≤ 1 →
            get_line_flux (fun u => u) exGrid2 exGrid2 (11 / 2) 11
              FiltShape.square none = none)) ∧
      ((1 : ℕ) = 0 →
        2 ≤ (pySlice exGrid2 (((0 : ℕ) : ℤ) - 2) (((1 : ℕ) : ℤ) + 2)).length →
        get_line_flux (fun u => u) exGrid2 exGrid2 (11 / 2) 11
          FiltShape.square none = some (0 / 0, none)) :=
  get_line_flux_beyond_coverage (fun u => u) exGrid2 exGrid2 (11 / 2) 11 0 1
    (by decide!) (by simp only [← chainLtB_iff]; decide!) (by decide!)

set_option maxRecDepth 100000 in
/-- C8 counterexample: for the band centred at 9 with supplied width 4
(half-width 2 after halving), the upper band edge 11 exceeds the
wavelength coverage 0..10; the nearest-index search clamps to the last
pixel (index 10) without raising, yet `get_line_flux` fails (`none`, a
bounds ValueError in Python) instead of proceeding with a truncated
integration. -/
theorem get_line_flux_no_truncation_cex :
    get_ini_end exGrid11 9 2 = some (7, 10) ∧
      (10 : ℚ) < 9 + 2 ∧
      get_line_flux (fun x => x) exGrid11 exGrid11 9 4 FiltShape.square none =
        none :=
  ⟨by decide!, by decide!, by decide!⟩

/-- C5 (amended): the NaI D1 D2 index computed by `_calculate_nai` is
`(D1 + D2) / (R + L)` — without the 0.5 factor of the structural formula
used by the other indices — together with its propagated error. -/
theorem calculate_nai_formula (sq : ℚ → ℚ) (waves fluxes errors : List ℚ)
    (D1 sD1 D2 sD2 L sL R sR : ℚ)
    (h1 : get_line_flux sq waves fluxes NaID1 1 FiltShape.square (some errors) =
      some (D1, some sD1))
    (h2 : get_line_flux sq waves fluxes NaID2 1 FiltShape.square (some errors) =
      some (D2, some sD2))
    (hL : get_line_flux sq waves fluxes 5805 10 FiltShape.square (some errors) =
      some (L, some sL))
    (hR : get_line_flux sq waves fluxes 6090 20 FiltShape.square (some errors) =
      some (R, some sR)) :
    calculate_nai sq waves fluxes errors =
      some ((D1 + D2) / (R + L),
        (D1 + D2) / (R + L) *
          sq ((sq (sD1 ^ 2 + sD2 ^ 2) / (D1 + D2)) ^ 2 +
            (sq (sL ^ 2 + sR ^ 2) / (R + L)) ^ 2)) := by
  rw [calculate_nai, h1, h2, hL, hR]
  simp only [Option.bind_eq_bind, Option.some_bind, Option.pure_def]

set_option maxRecDepth 100000 in
/-- Witness for the amended C5 theorem on the concrete constant-flux
spectrum over `exC5waves`, where all four band fluxes and their
uncertainties equal 1. -/
theorem calculate_nai_formula_witness :
    calculate_nai (fun x => x) exC5waves exC5flux exC5err =
      some ((1 + 1) / (1 + 1),
        ((1 : ℚ) + 1) / (1 + 1) *
          ((((1 : ℚ) ^ 2 + 1 ^ 2) / (1 + 1)) ^ 2 +
            (((1 : ℚ) ^ 2 + 1 ^ 2) / (1 + 1)) ^ 2)) :=
  calculate_nai_formula (fun x => x) exC5waves exC5flux exC5err 1 1 1 1 1 1 1 1
    (by decide!) (by decide!) (by decide!) (by decide!)

set_option maxRecDepth 100000 in
/-- C5 counterexample: on the constant-unit-flux spectrum over
`exC5waves` all four band fluxes equal 1; the code computes
`NaID1D2 = (1+1)/(1+1) = 1` while the claimed structural formula
`(D1+D2)/(0.5*(L+R))` gives 2. -/
theorem calculate_nai_no_half_cex :
    (calculate_nai (fun x => x) exC5waves exC5flux exC5err).map Prod.fst =
        some 1 ∧
      claim_nai_value exC5waves exC5flux = some 2 ∧
      ¬(1 : ℚ) = 2 :=
  ⟨by decide!, by decide!, by decide!⟩

end Cerespp
